import Mathlib

/-!
# Verification of the flox search/show pipeline and runix flag serialization

Shallow embedding of `src/crates/flox/src/commands/search.rs` and
`src/crates/runix/src/command_line/flag.rs`, together with proofs about the
search-result consolidation, show aggregation and command-line flag
serialization described in the specification.

Rust strings are modelled as Lean `String` (in this toolchain a structure
holding a `List Char`), vectors as `List`, `Option` as `Option`, and fallible
functions as `Except`.  Hash maps and hash sets are modelled as association
lists with unique keys and duplicate-free element lists: only membership,
size and removal are ever observed, so the hash order is irrelevant.
-/

namespace Flox

/-- Embeds Rust `str::split` with a one-character separator, acting on the
character list of a string.  Rust yields at least one (possibly empty)
segment; so does this function. -/
def splitChars (sep : Char) : List Char → List (List Char)
  | [] => [[]]
  | c :: cs =>
    if c = sep then [] :: splitChars sep cs
    else
      match splitChars sep cs with
      | [] => [[c]]
      | part :: parts => (c :: part) :: parts

/-- Rust `str::split` with a one-character separator on Lean strings. -/
def rust_split (sep : Char) (s : String) : List String :=
  (splitChars sep s.data).map (fun cs => ⟨cs⟩)

/-- `SEARCH_INPUT_SEPARATOR` from `search.rs`. -/
def SEARCH_INPUT_SEPARATOR : String := ":"

/-- `DEFAULT_DESCRIPTION` from `search.rs`. -/
def DEFAULT_DESCRIPTION : String := "<no description provided>"

/-- Modelled from the spec: the subtree classification carried by a raw
search result (`flox_rust_sdk::models::search::Subtree`, not under `src/`).
The spec only distinguishes the catalog kind from the others. -/
inductive Subtree where
  | catalog
  | other
deriving DecidableEq, Repr

/-- Modelled from the spec: a raw result from the external engine
(`flox_rust_sdk::models::search::SearchResult`, not under `src/`):
input name, relative path segments, absolute path segments, optional
description, optional version, subtree classification. -/
structure SearchResult where
  input : String
  rel_path : List String
  abs_path : List String
  description : Option String
  version : Option String
  subtree : Subtree
deriving DecidableEq, Repr

/-- Modelled from the spec: a manifest source is a filesystem path or an
inline JSON document (`PathOrJson`, not under `src/`). -/
inductive PathOrJson where
  | path (p : String)
  | json (j : String)
deriving DecidableEq, Repr

/-- Modelled from the spec: a structured query
(`flox_rust_sdk::models::search::Query`, not under `src/`): pattern,
optional semantic-version range, and the externally supplied match-strategy
choice.  The semantic-version-range grammar is external (node-semver) and is
not modelled; the range text is carried verbatim. -/
structure Query where
  pattern : String
  version_range : Option String
  match_name : Bool
deriving DecidableEq, Repr

/-- Errors surfaced by the commands modelled here.  `invalidSearchTerm`
embeds `ShowError::InvalidSearchTerm`; every other error in the modelled
code is an `anyhow` message string. -/
inductive CommandError where
  | invalidSearchTerm (term : String)
  | message (msg : String)
deriving DecidableEq, Repr

/-- Modelled from the spec: `Query::from_str` (not under `src/`).  The raw
term of grammar `pattern[@version-range]` is split on the first `@`; the
left part is the pattern, the right part (when present) the version range.
Fails when the pattern is empty.  The external semantic-version grammar
check is not modelled. -/
def Query.from_str (search_term : String) (match_name : Bool) :
    Except CommandError Query :=
  match rust_split '@' search_term with
  | [] => .error (.message "invalid query")
  | [pattern] =>
    if pattern = "" then .error (.message "invalid query")
    else .ok { pattern := pattern, version_range := none, match_name := match_name }
  | pattern :: rest =>
    if pattern = "" then .error (.message "invalid query")
    else .ok { pattern := pattern,
               version_range := some (String.intercalate "@" rest),
               match_name := match_name }

/-- `SearchParams` from the sdk, as documented by the spec data model:
manifest, mandatory global manifest, optional lockfile, query. -/
structure SearchParams where
  manifest : PathOrJson
  global_manifest : PathOrJson
  lockfile : Option PathOrJson
  query : Query
deriving DecidableEq, Repr

/-- `DisplayItem` from `search.rs`: the intermediate representation of a
search result used for rendering. -/
structure DisplayItem where
  input : String
  package : String
  description : Option String
  render_with_input : Bool
deriving DecidableEq, Repr

/-! ## runix flag serialization (`flag.rs`) -/

/-- `FlagType<T>` from `flag.rs`: the five flag kinds, each carrying an
extraction function from the owning value. -/
inductive FlagType (T : Type) where
  | bool (f : T → Bool)
  | list (f : T → List String)
  | arg (f : T → String)
  | args (f : T → List String)
  | custom (f : T → List String)

/-- The `Flag` trait data from `flag.rs`: the associated flag name `FLAG`
and kind `FLAG_TYPE`, bundled as a value. -/
structure FlagDecl (T : Type) where
  flag : String
  flag_type : FlagType T

/-- `to_args` from `flag.rs`: serialize one flag declaration applied to its
owning value into command-line tokens. -/
def to_args {T : Type} (decl : FlagDecl T) (self : T) : List String :=
  match decl.flag_type with
  | .bool f =>
    match f self with
    | true => [decl.flag]
    | false => []
  | .list f =>
    let list := f self
    match list.isEmpty with
    | true => []
    | false => [decl.flag, String.intercalate " " (f self)]
  | .arg f => [decl.flag, f self]
  | .args f =>
    let list := f self
    match list.isEmpty with
    | true => []
    | false => decl.flag :: list
  | .custom f => f self

/-! ## Search-result consolidation (`search.rs`) -/

/-- The projection performed in `render_search_results_user_facing`
(search.rs lines 175..186): keep input and joined relative path, flatten
newlines in the description, initialize the disambiguation flag to false. -/
def projectItem (r : SearchResult) : DisplayItem :=
  { input := r.input
    package := String.intercalate "." r.rel_path
    description := r.description.map (fun s => s.replace "\n" " ")
    render_with_input := false }

/-- A hash set of input names, modelled as a duplicate-free list. -/
abbrev InputSet := List String

/-- The `package_to_inputs` hash map, modelled as an association list with
unique keys. -/
abbrev PkgMap := List (String × InputSet)

/-- `HashMap::get` on the modelled map. -/
def lookupPkg : PkgMap → String → Option InputSet
  | [], _ => none
  | (k, s) :: rest, p => if k = p then some s else lookupPkg rest p

/-- The `entry(..).and_modify(insert).or_insert([input])` step of
`dedup_and_disambiguate_display_items` (search.rs lines 242..247). -/
def insertInput (m : PkgMap) (p i : String) : PkgMap :=
  match m with
  | [] => [(p, [i])]
  | (k, s) :: rest =>
    if k = p then (k, s.insert i) :: rest else (k, s) :: insertInput rest p i

/-- The first loop of `dedup_and_disambiguate_display_items`: build the map
from package label to the set of inputs it was seen in. -/
def buildPackageToInputs (display_items : List DisplayItem) : PkgMap :=
  display_items.foldl (fun m d => insertInput m d.package d.input) []

/-- The marking applied to one item by the second loop of
`dedup_and_disambiguate_display_items` (search.rs lines 251..255): when the
package is in the map, set the disambiguation flag to whether the input set
has more than one element. -/
def markItem (m : PkgMap) (d : DisplayItem) : DisplayItem :=
  match lookupPkg m d.package with
  | some inputs => { d with render_with_input := decide (inputs.length > 1) }
  | none => d

/-- The second loop of `dedup_and_disambiguate_display_items`. -/
def markItems (m : PkgMap) (display_items : List DisplayItem) : List DisplayItem :=
  display_items.map (markItem m)

/-- `HashSet::remove` on the entry for package `p`: erase input `i` from
that entry's set. -/
def removeInput (m : PkgMap) (p i : String) : PkgMap :=
  match m with
  | [] => []
  | (k, s) :: rest =>
    if k = p then (k, s.erase i) :: rest else (k, s) :: removeInput rest p i

/-- `HashMap::remove` of the entry for package `p`. -/
def removePkg (m : PkgMap) (p : String) : PkgMap :=
  match m with
  | [] => []
  | (k, s) :: rest => if k = p then rest else (k, s) :: removePkg rest p

/-- The third loop of `dedup_and_disambiguate_display_items` (search.rs
lines 264..275): walk the items in rank order; for each item whose
`(package, input)` pair is still present in the map, emit it and remove the
input from the package's set, dropping the entry once the set is empty. -/
def dedupLoop : PkgMap → List DisplayItem → List DisplayItem
  | _, [] => []
  | m, d :: rest =>
    match lookupPkg m d.package with
    | none => dedupLoop m rest
    | some inputs =>
      let m' := removeInput m d.package d.input
      let m'' := if (inputs.erase d.input).isEmpty then removePkg m' d.package else m'
      if d.input ∈ inputs then d :: dedupLoop m'' rest else dedupLoop m'' rest

/-- `dedup_and_disambiguate_display_items` from `search.rs`. -/
def dedup_and_disambiguate_display_items (display_items : List DisplayItem) :
    List DisplayItem :=
  let package_to_inputs := buildPackageToInputs display_items
  let marked := markItems package_to_inputs display_items
  dedupLoop package_to_inputs marked

/-- The column-width contribution of one item (search.rs lines 195..201). -/
def itemWidth (d : DisplayItem) : Nat :=
  if d.render_with_input then
    d.input.length + d.package.length + SEARCH_INPUT_SEPARATOR.length
  else
    d.package.length

/-- Left-justified padding `{package:<column_width$}`. -/
def padTo (w : Nat) (s : String) : String :=
  s ++ String.mk (List.replicate (w - s.length) ' ')

/-- One output line of the user-facing search rendering (search.rs lines
208..216). -/
def renderLine (column_width : Nat) (d : DisplayItem) : String :=
  let package :=
    if d.render_with_input then
      String.intercalate SEARCH_INPUT_SEPARATOR [d.input, d.package]
    else d.package
  let desc := d.description.getD DEFAULT_DESCRIPTION
  padTo column_width package ++ "  " ++ desc

/-- `render_search_results_user_facing` from `search.rs`, with the lines
written to standard output returned on success (the usage hint printed to
the error stream is not part of the standard-output lines). -/
def render_search_results_user_facing (search_term : String)
    (search_results : List SearchResult) : Except CommandError (List String) :=
  if search_results.isEmpty then
    .error (.message ("No packages matched this search term: " ++ search_term))
  else
    let display_items := search_results.map projectItem
    let deduped_display_items := dedup_and_disambiguate_display_items display_items
    if deduped_display_items.isEmpty then
      .error (.message "deduplicating search results failed")
    else
      -- `.max().unwrap()`: safe because the deduplicated list is non-empty.
      let column_width := ((deduped_display_items.map itemWidth).max?).getD 0
      .ok (deduped_display_items.map (renderLine column_width))

/-- Modelled from the spec: the structured-mode serialization of one raw
result (`serde_json::to_string`, an external library).  Every field is
preserved in a single-line record. -/
def serializeResult (r : SearchResult) : String :=
  "\x7b\"input\":\"" ++ r.input
    ++ "\",\"relPath\":[" ++ String.intercalate "," (r.rel_path.map (fun s => "\"" ++ s ++ "\""))
    ++ "],\"absPath\":[" ++ String.intercalate "," (r.abs_path.map (fun s => "\"" ++ s ++ "\""))
    ++ "],\"description\":" ++ (r.description.map (fun d => "\"" ++ d ++ "\"")).getD "null"
    ++ ",\"version\":" ++ (r.version.map (fun v => "\"" ++ v ++ "\"")).getD "null"
    ++ ",\"subtree\":\"" ++ (match r.subtree with | .catalog => "catalog" | .other => "other")
    ++ "\"\x7d"

/-- Modelled from the spec: structured-mode output serializes the original
raw result sequence, every field preserved, as a single line. -/
def serializeResults (search_results : List SearchResult) : String :=
  "[" ++ String.intercalate "," (search_results.map serializeResult) ++ "]"

/-- `render_search_results_json` from `search.rs`: print the serialized raw
results as one line, with no emptiness check. -/
def render_search_results_json (search_results : List SearchResult) :
    Except CommandError (List String) :=
  .ok [serializeResults search_results]

/-- The rendering dispatch of `Search::handle` (search.rs lines 114..120):
JSON mode or user-facing text mode. -/
def render_search_results (json : Bool) (search_term : String)
    (search_results : List SearchResult) : Except CommandError (List String) :=
  if json then render_search_results_json search_results
  else render_search_results_user_facing search_term search_results

/-! ## Show command (`search.rs`) -/

/-- The tail of `construct_show_params` after the segment match: build the
query from the selected package segment and assemble the params (search.rs
lines 375..386).  The input segment selected by the match is dropped there,
so it is no parameter here. -/
def show_params_query (package_name : String)
    (manifest global_manifest : PathOrJson) (lockfile : Option PathOrJson)
    (match_name : Bool) : Except CommandError SearchParams := do
  let query ← Query.from_str package_name match_name
  .ok { manifest := manifest, global_manifest := global_manifest,
        lockfile := lockfile, query := query }

/-- `construct_show_params` from `search.rs`: split the raw term on `:`;
one segment is a package name, two segments are an input name (unused) and
a package name, anything else is an `InvalidSearchTerm` error.  The
match-strategy configuration (`Features::parse()?.search_strategy ==
SearchStrategy::MatchName`) is passed as the `match_name` parameter. -/
def construct_show_params (search_term : String)
    (manifest global_manifest : PathOrJson) (lockfile : Option PathOrJson)
    (match_name : Bool) : Except CommandError SearchParams :=
  let parts := rust_split ':' search_term
  match parts with
  | [package_name] =>
    show_params_query package_name manifest global_manifest lockfile match_name
  | [_input_name, package_name] =>
    show_params_query package_name manifest global_manifest lockfile match_name
  | _ => .error (.invalidSearchTerm search_term)

/-- The package label of a raw result: relative-path segments joined by
`"."` (`rel_path.join(".")`). -/
def labelOf (r : SearchResult) : String :=
  String.intercalate "." r.rel_path

/-- One iteration of the collection loop of `render_show` (search.rs lines
393..401): remember the first label, and push every result whose label
equals it. -/
def collectStep (st : Option String × List SearchResult) (package : SearchResult) :
    Option String × List SearchResult :=
  let this_pkg_name := labelOf package
  let pkg_name := if st.1.isNone then some this_pkg_name else st.1
  let results := if pkg_name = some this_pkg_name then st.2 ++ [package] else st.2
  (pkg_name, results)

/-- The run of results collected by `render_show`. -/
def collectRun (search_results : List SearchResult) : List SearchResult :=
  (search_results.foldl collectStep (none, [])).2

/-- `render_show` from `search.rs`, with the printed lines returned on
success. -/
def render_show (search_results : List SearchResult) (all : Bool) :
    Except CommandError (List String) :=
  let st := search_results.foldl collectStep (none, [])
  match st.2 with
  | [] => .error (.message "no packages found")
  | r0 :: _ =>
    -- `pkg_name.unwrap()`: safe because the run is non-empty.
    let pkg_name := st.1.getD ""
    let description :=
      (r0.description.map (fun d => d.replace "\n" " ")).getD DEFAULT_DESCRIPTION
    let versions :=
      if all then
        let multiple_versions := st.2.filterMap (fun sr =>
          -- A catalog "latest" result is just a duplicate pointer.
          if (sr.subtree == Subtree.catalog)
              && ((sr.abs_path.getLast?.map (fun version => version == "latest")).getD false) then
            none
          else
            sr.version.map (fun version =>
              String.intercalate "@" [String.intercalate "." sr.rel_path, version]))
        String.intercalate ", " multiple_versions
      else
        let name := String.intercalate "." r0.rel_path
        match r0.version with
        | some version => String.intercalate "@" [name, version]
        | none => name
    .ok [pkg_name ++ " - " ++ description, "    " ++ pkg_name ++ " - " ++ versions]

/-- `Show::handle` from `search.rs`, from the point where the show params
are constructed: the external engine is passed in as a function so that the
control flow around it can be stated.  Exit status is modelled as an
integer, `0` meaning success. -/
def show_handle (engine : SearchParams → List SearchResult × Int)
    (search_term : String) (all : Bool) (manifest global_manifest : PathOrJson)
    (lockfile : Option PathOrJson) (match_name : Bool) :
    Except CommandError (List String) := do
  let search_params ← construct_show_params search_term manifest global_manifest
    lockfile match_name
  let (search_results, exit_status) := engine search_params
  if search_results.isEmpty then
    .error (.message ("no packages matched this search term: " ++ search_term))
  else do
    let lines ← render_show search_results all
    if exit_status = 0 then .ok lines
    else .error (.message "pkgdb exited with non-zero status code")

/-! ## Specification-side definitions

These definitions follow the words of the spec (first-occurrence
consolidation, contiguous prefix run, "latest" elision rule) and are
compared with the definitions embedded from the source. -/

/-- The `(package, input)` pair of a display item. -/
def pairOf (d : DisplayItem) : String × String :=
  (d.package, d.input)

/-- Spec-side: the sequence of first occurrences of pairs, in order, given
pairs already seen. -/
def firstOccurrences (seen : List (String × String)) :
    List (String × String) → List (String × String)
  | [] => []
  | q :: rest =>
    if q ∈ seen then firstOccurrences seen rest
    else q :: firstOccurrences (q :: seen) rest

/-- Spec-side: keep, in order, the first item carrying each distinct
`(package, input)` pair not already seen. -/
def keepFirstOccurrences (seen : List (String × String)) :
    List DisplayItem → List DisplayItem
  | [] => []
  | d :: rest =>
    if pairOf d ∈ seen then keepFirstOccurrences seen rest
    else d :: keepFirstOccurrences (pairOf d :: seen) rest

/-- Spec-side: the contiguous prefix run of results whose label equals the
first result's label, per the spec's show-aggregation contract. -/
def specPrefixRun : List SearchResult → List SearchResult
  | [] => []
  | r :: rest => r :: rest.takeWhile (fun p => labelOf p == labelOf r)

/-- Spec-side: the contribution of one collected-run entry to the
all-versions join: excluded exactly when the subtree classification is the
catalog kind with trailing absolute-path segment `"latest"`, or when the
entry carries no version; otherwise `label@version`. -/
def specAllVersionsEntry (sr : SearchResult) : Option String :=
  if (sr.subtree = Subtree.catalog ∧ sr.abs_path.getLast? = some "latest")
      ∨ sr.version = none then
    none
  else
    some (labelOf sr ++ "@" ++ sr.version.getD "")

/-- Spec-side: the package label `p` occurs in the item sequence paired
with more than one distinct input value. -/
def multiInput (display_items : List DisplayItem) (p : String) : Prop :=
  ∃ d₁ ∈ display_items, ∃ d₂ ∈ display_items,
    d₁.package = p ∧ d₂.package = p ∧ d₁.input ≠ d₂.input

instance (display_items : List DisplayItem) (p : String) :
    Decidable (multiInput display_items p) := by
  unfold multiInput
  infer_instance

/-! ## Concrete inputs used by counterexamples and witnesses -/

/-- A top-ranked `python` result. -/
def srPython310 : SearchResult :=
  { input := "nixpkgs", rel_path := ["python"], abs_path := ["catalog", "python", "3.10"],
    description := some "an interpreter", version := some "3.10", subtree := .catalog }

/-- An unrelated `numpy` result that interrupts the `python` results. -/
def srNumpy : SearchResult :=
  { input := "nixpkgs", rel_path := ["numpy"], abs_path := ["catalog", "numpy", "1.24"],
    description := some "arrays", version := some "1.24", subtree := .catalog }

/-- A later `python` result appearing after the non-matching `numpy` one. -/
def srPython39 : SearchResult :=
  { input := "nixpkgs", rel_path := ["python"], abs_path := ["catalog", "python", "3.9"],
    description := some "an interpreter", version := some "3.9", subtree := .catalog }

/-- A ranked sequence whose matching labels are not contiguous. -/
def runExample : List SearchResult := [srPython310, srNumpy, srPython39]

/-- A `python` display item from input `flox`. -/
def itemFlox : DisplayItem :=
  { input := "flox", package := "python", description := some "from flox",
    render_with_input := false }

/-- A `python` display item from input `nixpkgs`. -/
def itemNixpkgs : DisplayItem :=
  { input := "nixpkgs", package := "python", description := some "from nixpkgs",
    render_with_input := false }

/-- A duplicate of `itemFlox` with a different description, ranked last. -/
def itemFloxDup : DisplayItem :=
  { input := "flox", package := "python", description := some "duplicate",
    render_with_input := false }

/-- The ranked display-item sequence of the spec's consolidation example. -/
def itemsExample : List DisplayItem := [itemFlox, itemNixpkgs, itemFloxDup]

/-- `itemFlox` as it appears in the consolidated output: flagged for
disambiguation because `python` occurs under two inputs. -/
def itemFloxMarked : DisplayItem :=
  { input := "flox", package := "python", description := some "from flox",
    render_with_input := true }

/-- The list of package keys of the modelled map. -/
def keysOf (m : PkgMap) : List String :=
  m.map (fun e => e.1)

/-- A `(package, input)` pair is present in the modelled map. -/
def pairInMap (m : PkgMap) (q : String × String) : Prop :=
  ∃ s, lookupPkg m q.1 = some s ∧ q.2 ∈ s

/-- Well-formedness of the modelled map: unique keys, duplicate-free input
sets.  Every map built by `buildPackageToInputs` satisfies this. -/
def WFMap (m : PkgMap) : Prop :=
  (keysOf m).Nodup ∧ ∀ p s, lookupPkg m p = some s → s.Nodup

/-! ## Lemmas about the string split -/

theorem splitChars_ne_nil (sep : Char) (l : List Char) : splitChars sep l ≠ [] := by
  induction l with
  | nil => simp [splitChars]
  | cons c cs ih =>
    by_cases h : c = sep
    · simp [splitChars, h]
    · simp only [splitChars, if_neg h]
      cases hs : splitChars sep cs with
      | nil => simp
      | cons p ps => simp

theorem sep_not_mem_of_mem_splitChars (sep : Char) (l : List Char) :
    ∀ part ∈ splitChars sep l, sep ∉ part := by
  induction l with
  | nil =>
    intro part h
    simp [splitChars] at h
    subst h
    simp
  | cons c cs ih =>
    intro part hmem
    by_cases h : c = sep
    · simp only [splitChars, if_pos h, List.mem_cons] at hmem
      rcases hmem with rfl | hmem
      · simp
      · exact ih part hmem
    · simp only [splitChars, if_neg h] at hmem
      cases hs : splitChars sep cs with
      | nil => exact absurd hs (splitChars_ne_nil sep cs)
      | cons p ps =>
        rw [hs] at hmem
        simp only [List.mem_cons] at hmem
        rcases hmem with rfl | hmem
        · intro hsep
          simp only [List.mem_cons] at hsep
          rcases hsep with rfl | hsep
          · exact h rfl
          · exact ih p (by rw [hs]; exact List.mem_cons_self p ps) hsep
        · exact ih part (by rw [hs]; exact List.mem_cons_of_mem p hmem)

theorem splitChars_of_not_mem (sep : Char) (l : List Char) (h : sep ∉ l) :
    splitChars sep l = [l] := by
  induction l with
  | nil => rfl
  | cons c cs ih =>
    simp only [List.mem_cons, not_or] at h
    have h1 : ¬ c = sep := fun hc => h.1 hc.symm
    simp only [splitChars, if_neg h1, ih h.2]

theorem rust_split_eq_singleton (sep : Char) (s : String)
    (h : sep ∉ s.data) : rust_split sep s = [s] := by
  unfold rust_split
  rw [splitChars_of_not_mem sep s.data h]
  rfl

theorem rust_split_pair_no_sep {sep : Char} {term i p : String}
    (h : rust_split sep term = [i, p]) : sep ∉ p.data := by
  unfold rust_split at h
  cases hs : splitChars sep term.data with
  | nil => rw [hs] at h; simp at h
  | cons x rest =>
    cases rest with
    | nil => rw [hs] at h; simp at h
    | cons y rest2 =>
      cases rest2 with
      | nil =>
        rw [hs] at h
        simp only [List.map_cons, List.map_nil, List.cons.injEq, and_true] at h
        have hy : y ∈ splitChars sep term.data := by
          rw [hs]; exact List.mem_cons_of_mem x (List.mem_cons_self y [])
        have hns := sep_not_mem_of_mem_splitChars sep term.data y hy
        have hp : p = ⟨y⟩ := h.2.symm
        rw [hp]
        exact hns
      | cons z rest3 => rw [hs] at h; simp at h

/-! ## Lemmas about the show-aggregation collection loop -/

theorem foldl_collectStep_some (l : String) (rest : List SearchResult) :
    ∀ acc : List SearchResult,
      rest.foldl collectStep (some l, acc) =
        (some l, acc ++ rest.filter (fun p => labelOf p == l)) := by
  induction rest with
  | nil => intro acc; simp
  | cons p rest ih =>
    intro acc
    rw [List.foldl_cons]
    by_cases hl : labelOf p = l
    · have hstep : collectStep (some l, acc) p = (some l, acc ++ [p]) := by
        simp [collectStep, hl]
      rw [hstep, ih]
      simp [List.filter_cons, hl]
    · have hstep : collectStep (some l, acc) p = (some l, acc) := by
        simp only [collectStep, Option.isNone_some, Bool.false_eq_true, if_false]
        have : ¬ (some l = some (labelOf p)) := by
          simp
          exact fun hc => hl hc.symm
        simp [this]
      rw [hstep, ih]
      simp [List.filter_cons, hl]

theorem foldl_collectStep_cons (r0 : SearchResult) (rest : List SearchResult) :
    (r0 :: rest).foldl collectStep (none, []) =
      (some (labelOf r0), r0 :: rest.filter (fun p => labelOf p == labelOf r0)) := by
  rw [List.foldl_cons]
  have h0 : collectStep ((none : Option String), ([] : List SearchResult)) r0 =
      (some (labelOf r0), [r0]) := by
    simp [collectStep]
  rw [h0, foldl_collectStep_some]
  simp

theorem collectRun_cons (r0 : SearchResult) (rest : List SearchResult) :
    collectRun (r0 :: rest) =
      r0 :: rest.filter (fun p => labelOf p == labelOf r0) := by
  unfold collectRun
  rw [foldl_collectStep_cons]

/-! ## Lemmas about the package-to-inputs map -/

theorem lookup_insertInput (m : PkgMap) (p i q : String) :
    lookupPkg (insertInput m p i) q =
      if q = p then some (((lookupPkg m p).getD []).insert i)
      else lookupPkg m q := by
  induction m with
  | nil =>
    by_cases hq : q = p
    · simp [insertInput, lookupPkg, hq, List.insert]
    · have : ¬ p = q := fun hc => hq hc.symm
      simp [insertInput, lookupPkg, hq, this]
  | cons e rest ih =>
    obtain ⟨k, s⟩ := e
    by_cases hk : k = p
    · subst hk
      by_cases hq : q = k
      · subst hq
        simp [insertInput, lookupPkg]
      · have : ¬ k = q := fun hc => hq hc.symm
        simp [insertInput, lookupPkg, hq, this]
    · by_cases hq : q = k
      · subst hq
        have : ¬ q = p := fun hc => hk (hc ▸ rfl)
        simp [insertInput, lookupPkg, hk, this]
      · have hkq : ¬ k = q := fun hc => hq hc.symm
        simp only [insertInput, if_neg hk, lookupPkg, if_neg hkq]
        exact ih

theorem pairInMap_insertInput (m : PkgMap) (p i : String) (q : String × String) :
    pairInMap (insertInput m p i) q ↔ pairInMap m q ∨ q = (p, i) := by
  by_cases hq : q.1 = p
  · cases hl : lookupPkg m p with
    | none =>
      have hm : ¬ pairInMap m q := by
        rintro ⟨s, hs, _⟩
        rw [hq, hl] at hs
        cases hs
      simp only [pairInMap, lookup_insertInput, if_pos hq, hl, Option.getD_none,
        Option.some.injEq, exists_eq_left']
      rw [List.mem_insert_iff]
      simp only [List.not_mem_nil, or_false]
      constructor
      · intro h
        right
        exact Prod.ext hq h
      · rintro (h | h)
        · exact absurd h hm
        · exact congrArg Prod.snd h
    | some s =>
      simp only [pairInMap, lookup_insertInput, if_pos hq, hl, Option.getD_some,
        Option.some.injEq, exists_eq_left']
      rw [List.mem_insert_iff]
      constructor
      · rintro (h | h)
        · right; exact Prod.ext hq h
        · left; exact ⟨s, by rw [hq, hl], h⟩
      · rintro (⟨s', hs', hmem⟩ | h)
        · rw [hq, hl, Option.some.injEq] at hs'
          right
          rw [hs']
          exact hmem
        · left; exact congrArg Prod.snd h
  · have hlk : lookupPkg (insertInput m p i) q.1 = lookupPkg m q.1 := by
      rw [lookup_insertInput, if_neg hq]
    simp only [pairInMap, hlk]
    constructor
    · exact Or.inl
    · rintro (h | h)
      · exact h
      · exact absurd (congrArg Prod.fst h) hq

theorem keysOf_insertInput (m : PkgMap) (p i : String) :
    keysOf (insertInput m p i) =
      if p ∈ keysOf m then keysOf m else keysOf m ++ [p] := by
  induction m with
  | nil => simp [insertInput, keysOf]
  | cons e rest ih =>
    obtain ⟨k, s⟩ := e
    by_cases hk : k = p
    · subst hk
      simp [insertInput, keysOf]
    · have hpk : ¬ p = k := fun hc => hk hc.symm
      have hstep : insertInput ((k, s) :: rest) p i = (k, s) :: insertInput rest p i := by
        simp [insertInput, hk]
      rw [hstep]
      have hcons : keysOf ((k, s) :: insertInput rest p i) =
          k :: keysOf (insertInput rest p i) := rfl
      rw [hcons, ih]
      by_cases hp : p ∈ List.map (fun (e : String × InputSet) => e.1) rest
      · simp [keysOf, List.mem_cons, hpk, hp]
      · simp [keysOf, List.mem_cons, hpk, hp]

theorem WFMap_insertInput {m : PkgMap} (h : WFMap m) (p i : String) :
    WFMap (insertInput m p i) := by
  obtain ⟨hkeys, hsets⟩ := h
  constructor
  · rw [keysOf_insertInput]
    by_cases hp : p ∈ keysOf m
    · simpa [hp] using hkeys
    · simp only [hp, if_false]
      rw [List.nodup_append]
      exact ⟨hkeys, List.nodup_singleton p, by simpa using hp⟩
  · intro q s hq
    rw [lookup_insertInput] at hq
    by_cases hqp : q = p
    · rw [if_pos hqp, Option.some.injEq] at hq
      subst hq
      apply List.Nodup.insert
      cases hl : lookupPkg m p with
      | none => simp
      | some s' => simpa using hsets p s' hl
    · rw [if_neg hqp] at hq
      exact hsets q s hq

theorem pairInMap_foldl_insert (l : List DisplayItem) :
    ∀ (m : PkgMap) (q : String × String),
      pairInMap (l.foldl (fun m d => insertInput m d.package d.input) m) q ↔
        pairInMap m q ∨ q ∈ l.map pairOf := by
  induction l with
  | nil => intro m q; simp
  | cons d rest ih =>
    intro m q
    rw [List.foldl_cons, ih, pairInMap_insertInput]
    simp only [List.map_cons, List.mem_cons]
    constructor
    · rintro ((h | h) | h)
      · exact Or.inl h
      · exact Or.inr (Or.inl (by rw [h]; rfl))
      · exact Or.inr (Or.inr h)
    · rintro (h | h | h)
      · exact Or.inl (Or.inl h)
      · exact Or.inl (Or.inr (by rw [h]; rfl))
      · exact Or.inr h

theorem pairInMap_build (display_items : List DisplayItem) (q : String × String) :
    pairInMap (buildPackageToInputs display_items) q ↔
      q ∈ display_items.map pairOf := by
  unfold buildPackageToInputs
  rw [pairInMap_foldl_insert]
  simp [pairInMap, lookupPkg]

theorem WFMap_foldl_insert (l : List DisplayItem) :
    ∀ m : PkgMap, WFMap m →
      WFMap (l.foldl (fun m d => insertInput m d.package d.input) m) := by
  induction l with
  | nil => intro m h; exact h
  | cons d rest ih =>
    intro m h
    rw [List.foldl_cons]
    exact ih _ (WFMap_insertInput h d.package d.input)

theorem WFMap_build (display_items : List DisplayItem) :
    WFMap (buildPackageToInputs display_items) := by
  unfold buildPackageToInputs
  apply WFMap_foldl_insert
  constructor
  · simp [keysOf]
  · intro p s h
    simp [lookupPkg] at h

theorem lookup_removeInput (m : PkgMap) (p i q : String) :
    lookupPkg (removeInput m p i) q =
      if q = p then (lookupPkg m p).map (fun s => s.erase i)
      else lookupPkg m q := by
  induction m with
  | nil =>
    by_cases hq : q = p <;> simp [removeInput, lookupPkg, hq]
  | cons e rest ih =>
    obtain ⟨k, s⟩ := e
    by_cases hk : k = p
    · subst hk
      by_cases hq : q = k
      · subst hq
        simp [removeInput, lookupPkg]
      · have hkq : ¬ k = q := fun hc => hq hc.symm
        simp [removeInput, lookupPkg, hq, hkq]
    · by_cases hq : q = k
      · subst hq
        have hqp : ¬ q = p := hk
        simp [removeInput, lookupPkg, hk, hqp]
      · have hkq : ¬ k = q := fun hc => hq hc.symm
        simp only [removeInput, if_neg hk, lookupPkg, if_neg hkq]
        exact ih

theorem lookup_eq_none_iff (m : PkgMap) (p : String) :
    lookupPkg m p = none ↔ p ∉ keysOf m := by
  induction m with
  | nil => simp [lookupPkg, keysOf]
  | cons e rest ih =>
    obtain ⟨k, s⟩ := e
    by_cases hk : k = p
    · subst hk
      simp [lookupPkg, keysOf]
    · have hpk : ¬ p = k := fun hc => hk hc.symm
      simp only [lookupPkg, if_neg hk, keysOf, List.map_cons, List.mem_cons, not_or]
      rw [keysOf] at ih
      simp [ih, hpk]

theorem keysOf_removeInput (m : PkgMap) (p i : String) :
    keysOf (removeInput m p i) = keysOf m := by
  induction m with
  | nil => rfl
  | cons e rest ih =>
    obtain ⟨k, s⟩ := e
    by_cases hk : k = p
    · simp [removeInput, hk, keysOf]
    · simp only [removeInput, if_neg hk, keysOf, List.map_cons, List.cons.injEq,
        true_and]
      rw [keysOf] at ih
      exact ih

theorem keysOf_removePkg_sublist (m : PkgMap) (p : String) :
    List.Sublist (keysOf (removePkg m p)) (keysOf m) := by
  induction m with
  | nil => simp [removePkg, keysOf]
  | cons e rest ih =>
    obtain ⟨k, s⟩ := e
    by_cases hk : k = p
    · simp only [removePkg, if_pos hk, keysOf, List.map_cons]
      exact List.sublist_cons_self k (List.map (fun e => e.1) rest)
    · simp only [removePkg, if_neg hk, keysOf, List.map_cons]
      exact List.Sublist.cons₂ k ih

theorem lookup_removePkg (m : PkgMap) (p q : String)
    (hnd : (keysOf m).Nodup) :
    lookupPkg (removePkg m p) q = if q = p then none else lookupPkg m q := by
  induction m with
  | nil => by_cases hq : q = p <;> simp [removePkg, lookupPkg, hq]
  | cons e rest ih =>
    obtain ⟨k, s⟩ := e
    have hnd' : (keysOf rest).Nodup := by
      rw [keysOf, List.map_cons] at hnd
      exact hnd.of_cons
    have hknot : k ∉ keysOf rest := by
      rw [keysOf, List.map_cons] at hnd
      exact (List.nodup_cons.mp hnd).1
    by_cases hk : k = p
    · subst hk
      by_cases hq : q = k
      · subst hq
        simp only [removePkg, if_pos rfl, if_pos rfl]
        exact (lookup_eq_none_iff rest q).mpr hknot
      · have hkq : ¬ k = q := fun hc => hq hc.symm
        simp [removePkg, lookupPkg, hq, hkq]
    · by_cases hq : q = k
      · subst hq
        have hqp : ¬ q = p := hk
        simp [removePkg, lookupPkg, hk, hqp]
      · have hkq : ¬ k = q := fun hc => hq hc.symm
        simp only [removePkg, if_neg hk, lookupPkg, if_neg hkq]
        exact ih hnd'

theorem WFMap_removeInput {m : PkgMap} (h : WFMap m) (p i : String) :
    WFMap (removeInput m p i) := by
  constructor
  · rw [keysOf_removeInput]
    exact h.1
  · intro q s hq
    rw [lookup_removeInput] at hq
    by_cases hqp : q = p
    · rw [if_pos hqp] at hq
      cases hl : lookupPkg m p with
      | none => rw [hl] at hq; cases hq
      | some s' =>
        rw [hl] at hq
        simp only [Option.map_some', Option.some.injEq] at hq
        rw [← hq]
        exact (h.2 p s' hl).erase i
    · rw [if_neg hqp] at hq
      exact h.2 q s hq

theorem WFMap_removePkg {m : PkgMap} (h : WFMap m) (p : String) :
    WFMap (removePkg m p) := by
  constructor
  · exact (keysOf_removePkg_sublist m p).nodup h.1
  · intro q s hq
    rw [lookup_removePkg m p q h.1] at hq
    by_cases hqp : q = p
    · rw [if_pos hqp] at hq; cases hq
    · rw [if_neg hqp] at hq
      exact h.2 q s hq

theorem pairInMap_dedupStep {m : PkgMap} {p i : String} {inputs : InputSet}
    (hwf : WFMap m) (hl : lookupPkg m p = some inputs) (q : String × String) :
    pairInMap
      (if (inputs.erase i).isEmpty then removePkg (removeInput m p i) p
       else removeInput m p i) q ↔
      pairInMap m q ∧ q ≠ (p, i) := by
  have hinputs_nd : inputs.Nodup := hwf.2 p inputs hl
  have hkeys' : (keysOf (removeInput m p i)).Nodup := by
    rw [keysOf_removeInput]; exact hwf.1
  by_cases hemp : (inputs.erase i).isEmpty
  · rw [if_pos hemp]
    have herase : inputs.erase i = [] := List.isEmpty_iff.mp hemp
    unfold pairInMap
    rw [lookup_removePkg _ _ _ hkeys']
    by_cases hq : q.1 = p
    · rw [if_pos hq]
      constructor
      · rintro ⟨s, hs, _⟩
        cases hs
      · rintro ⟨⟨s, hs, hmem⟩, hne⟩
        rw [hq, hl, Option.some.injEq] at hs
        have hne2 : q.2 ≠ i := fun hc => hne (Prod.ext hq hc)
        have : q.2 ∈ inputs.erase i := by
          rw [List.mem_erase_of_ne hne2, hs]
          exact hmem
        rw [herase] at this
        cases this
    · rw [if_neg hq, lookup_removeInput, if_neg hq]
      constructor
      · intro h
        exact ⟨h, fun hc => hq (congrArg Prod.fst hc)⟩
      · rintro ⟨h, _⟩
        exact h
  · rw [if_neg hemp]
    unfold pairInMap
    rw [lookup_removeInput]
    by_cases hq : q.1 = p
    · rw [if_pos hq, hl]
      simp only [Option.map_some', Option.some.injEq, exists_eq_left']
      rw [List.Nodup.mem_erase_iff hinputs_nd]
      constructor
      · rintro ⟨hne, hmem⟩
        exact ⟨⟨inputs, by rw [hq, hl], hmem⟩, fun hc => hne (congrArg Prod.snd hc)⟩
      · rintro ⟨⟨s, hs, hmem⟩, hne⟩
        rw [hq, hl, Option.some.injEq] at hs
        refine ⟨fun h2 => hne (Prod.ext hq h2), ?_⟩
        rw [hs]
        exact hmem
    · rw [if_neg hq]
      constructor
      · intro h
        exact ⟨h, fun hc => hq (congrArg Prod.fst hc)⟩
      · rintro ⟨h, _⟩
        exact h

/-! ## The dedup walk keeps exactly the first occurrence of each pair -/

theorem pairOf_markItem (m : PkgMap) (d : DisplayItem) :
    pairOf (markItem m d) = pairOf d := by
  unfold markItem
  cases lookupPkg m d.package <;> rfl

theorem markItem_package (m : PkgMap) (d : DisplayItem) :
    (markItem m d).package = d.package := by
  unfold markItem
  cases lookupPkg m d.package <;> rfl

theorem markItem_input (m : PkgMap) (d : DisplayItem) :
    (markItem m d).input = d.input := by
  unfold markItem
  cases lookupPkg m d.package <;> rfl

theorem markItem_description (m : PkgMap) (d : DisplayItem) :
    (markItem m d).description = d.description := by
  unfold markItem
  cases lookupPkg m d.package <;> rfl

theorem map_pairOf_markItems (m : PkgMap) (display_items : List DisplayItem) :
    (markItems m display_items).map pairOf = display_items.map pairOf := by
  unfold markItems
  rw [List.map_map]
  apply List.map_congr_left
  intro d _
  exact pairOf_markItem m d

theorem dedupLoop_eq_keepFirst :
    ∀ (l : List DisplayItem) (m : PkgMap) (seen : List (String × String)),
      WFMap m →
      (∀ d ∈ l, pairInMap m (pairOf d) ↔ pairOf d ∉ seen) →
      dedupLoop m l = keepFirstOccurrences seen l := by
  intro l
  induction l with
  | nil => intro m seen _ _; rfl
  | cons d rest ih =>
    intro m seen hwf h
    have hd := h d (List.mem_cons_self d rest)
    cases hl : lookupPkg m d.package with
    | none =>
      have hnot : ¬ pairInMap m (pairOf d) := by
        rintro ⟨s, hs, _⟩
        rw [show (pairOf d).1 = d.package from rfl, hl] at hs
        cases hs
      have hseen : pairOf d ∈ seen := by
        by_contra hc
        exact hnot (hd.mpr hc)
      have hL : dedupLoop m (d :: rest) = dedupLoop m rest := by
        simp [dedupLoop, hl]
      have hR : keepFirstOccurrences seen (d :: rest) =
          keepFirstOccurrences seen rest := by
        simp [keepFirstOccurrences, hseen]
      rw [hL, hR]
      exact ih m seen hwf (fun e he => h e (List.mem_cons_of_mem d he))
    | some inputs =>
      have hstep := pairInMap_dedupStep (i := d.input) hwf hl
      have hwf'' : WFMap (if (inputs.erase d.input).isEmpty then
          removePkg (removeInput m d.package d.input) d.package
          else removeInput m d.package d.input) := by
        by_cases hemp : (inputs.erase d.input).isEmpty
        · rw [if_pos hemp]
          exact WFMap_removePkg (WFMap_removeInput hwf _ _) _
        · rw [if_neg hemp]
          exact WFMap_removeInput hwf _ _
      by_cases hmem : d.input ∈ inputs
      · have hpim : pairInMap m (pairOf d) := ⟨inputs, hl, hmem⟩
        have hseen : pairOf d ∉ seen := hd.mp hpim
        have hL : dedupLoop m (d :: rest) =
            d :: dedupLoop (if (inputs.erase d.input).isEmpty then
              removePkg (removeInput m d.package d.input) d.package
              else removeInput m d.package d.input) rest := by
          simp [dedupLoop, hl, hmem]
        have hR : keepFirstOccurrences seen (d :: rest) =
            d :: keepFirstOccurrences (pairOf d :: seen) rest := by
          simp [keepFirstOccurrences, hseen]
        rw [hL, hR]
        congr 1
        apply ih _ (pairOf d :: seen) hwf''
        intro e he
        rw [hstep (pairOf e)]
        have heq := h e (List.mem_cons_of_mem d he)
        constructor
        · rintro ⟨hp, hne⟩
          intro hc
          rcases List.mem_cons.mp hc with hc1 | hc2
          · exact hne hc1
          · exact (heq.mp hp) hc2
        · intro hc
          have h1 : pairOf e ∉ seen := fun hx => hc (List.mem_cons_of_mem _ hx)
          have h2 : pairOf e ≠ pairOf d := fun hx =>
            hc (by rw [hx]; exact List.mem_cons_self _ _)
          exact ⟨heq.mpr h1, h2⟩
      · have hnot : ¬ pairInMap m (pairOf d) := by
          rintro ⟨s, hs, hm⟩
          rw [show (pairOf d).1 = d.package from rfl, hl, Option.some.injEq] at hs
          rw [hs] at hmem
          exact hmem hm
        have hseen : pairOf d ∈ seen := by
          by_contra hc
          exact hnot (hd.mpr hc)
        have hL : dedupLoop m (d :: rest) =
            dedupLoop (if (inputs.erase d.input).isEmpty then
              removePkg (removeInput m d.package d.input) d.package
              else removeInput m d.package d.input) rest := by
          simp [dedupLoop, hl, hmem]
        have hR : keepFirstOccurrences seen (d :: rest) =
            keepFirstOccurrences seen rest := by
          simp [keepFirstOccurrences, hseen]
        rw [hL, hR]
        apply ih _ seen hwf''
        intro e he
        rw [hstep (pairOf e)]
        have heq := h e (List.mem_cons_of_mem d he)
        constructor
        · rintro ⟨hp, _⟩
          exact heq.mp hp
        · intro hc
          refine ⟨heq.mpr hc, fun hx => ?_⟩
          exact hc (by rw [show pairOf d = (d.package, d.input) from rfl] at hseen; rw [hx]; exact hseen)

/-- The consolidation refines the spec-side first-occurrence filter applied
to the marked items. -/
theorem dedup_eq_keepFirst (display_items : List DisplayItem) :
    dedup_and_disambiguate_display_items display_items =
      keepFirstOccurrences []
        (markItems (buildPackageToInputs display_items) display_items) := by
  unfold dedup_and_disambiguate_display_items
  apply dedupLoop_eq_keepFirst _ _ _ (WFMap_build display_items)
  intro d hd
  simp only [List.not_mem_nil, not_false_iff, iff_true]
  rw [pairInMap_build]
  have : pairOf d ∈ (markItems (buildPackageToInputs display_items) display_items).map pairOf := by
    exact List.mem_map_of_mem pairOf hd
  rw [map_pairOf_markItems] at this
  exact this

theorem map_pairOf_keepFirst :
    ∀ (l : List DisplayItem) (seen : List (String × String)),
      (keepFirstOccurrences seen l).map pairOf = firstOccurrences seen (l.map pairOf) := by
  intro l
  induction l with
  | nil => intro seen; rfl
  | cons d rest ih =>
    intro seen
    by_cases hseen : pairOf d ∈ seen
    · simp only [keepFirstOccurrences, if_pos hseen, List.map_cons, firstOccurrences,
        if_pos hseen]
      exact ih seen
    · simp only [keepFirstOccurrences, if_neg hseen, List.map_cons, firstOccurrences,
        if_neg hseen, List.cons.injEq, true_and]
      exact ih (pairOf d :: seen)

theorem pair_not_seen_of_mem_keepFirst :
    ∀ (l : List DisplayItem) (seen : List (String × String)) (d : DisplayItem),
      d ∈ keepFirstOccurrences seen l → pairOf d ∉ seen := by
  intro l
  induction l with
  | nil => intro seen d h; cases h
  | cons e rest ih =>
    intro seen d h
    by_cases hseen : pairOf e ∈ seen
    · rw [keepFirstOccurrences, if_pos hseen] at h
      exact ih seen d h
    · rw [keepFirstOccurrences, if_neg hseen] at h
      rcases List.mem_cons.mp h with rfl | h2
      · exact hseen
      · have := ih (pairOf e :: seen) d h2
        exact fun hc => this (List.mem_cons_of_mem _ hc)

theorem find?_of_mem_keepFirst :
    ∀ (l : List DisplayItem) (seen : List (String × String)) (d : DisplayItem),
      d ∈ keepFirstOccurrences seen l →
        l.find? (fun e => pairOf e == pairOf d) = some d := by
  intro l
  induction l with
  | nil => intro seen d h; cases h
  | cons e rest ih =>
    intro seen d h
    by_cases hseen : pairOf e ∈ seen
    · rw [keepFirstOccurrences, if_pos hseen] at h
      have hfind := ih seen d h
      have hne : pairOf e ≠ pairOf d := by
        intro hc
        exact (pair_not_seen_of_mem_keepFirst rest seen d h) (hc ▸ hseen)
      rw [List.find?_cons]
      have : (pairOf e == pairOf d) = false := by
        simp [hne]
      rw [this]
      exact hfind
    · rw [keepFirstOccurrences, if_neg hseen] at h
      rcases List.mem_cons.mp h with rfl | h2
      · rw [List.find?_cons]
        simp
      · have hfind := ih (pairOf e :: seen) d h2
        have hnotin := pair_not_seen_of_mem_keepFirst rest (pairOf e :: seen) d h2
        have hne : pairOf e ≠ pairOf d := fun hc =>
          hnotin (by rw [← hc]; exact List.mem_cons_self _ _)
        rw [List.find?_cons]
        have hb : (pairOf e == pairOf d) = false := by
          simp [hne]
        rw [hb]
        exact hfind

theorem find?_markItems (m : PkgMap) (display_items : List DisplayItem)
    (pr : String × String) :
    (markItems m display_items).find? (fun e => pairOf e == pr) =
      (display_items.find? (fun e => pairOf e == pr)).map (markItem m) := by
  induction display_items with
  | nil => rfl
  | cons d rest ih =>
    show (markItem m d :: markItems m rest).find? _ = _
    rw [List.find?_cons, List.find?_cons]
    by_cases hp : pairOf d = pr
    · have h1 : (pairOf (markItem m d) == pr) = true := by
        rw [pairOf_markItem]
        simp [hp]
      have h2 : (pairOf d == pr) = true := by simp [hp]
      rw [h1, h2]
      rfl
    · have h1 : (pairOf (markItem m d) == pr) = false := by
        rw [pairOf_markItem]
        simp [hp]
      have h2 : (pairOf d == pr) = false := by simp [hp]
      rw [h1, h2]
      exact ih

theorem keepFirst_sublist :
    ∀ (l : List DisplayItem) (seen : List (String × String)),
      List.Sublist (keepFirstOccurrences seen l) l := by
  intro l
  induction l with
  | nil => intro seen; simp [keepFirstOccurrences]
  | cons d rest ih =>
    intro seen
    by_cases hseen : pairOf d ∈ seen
    · rw [keepFirstOccurrences, if_pos hseen]
      exact (ih seen).trans (List.sublist_cons_self d rest)
    · rw [keepFirstOccurrences, if_neg hseen]
      exact List.Sublist.cons₂ d (ih (pairOf d :: seen))

theorem lookup_build_of_mem {display_items : List DisplayItem} {d : DisplayItem}
    (hd : d ∈ display_items) :
    ∃ s, lookupPkg (buildPackageToInputs display_items) d.package = some s ∧
      s.Nodup ∧ ∀ i, i ∈ s ↔ (d.package, i) ∈ display_items.map pairOf := by
  have hpair : pairInMap (buildPackageToInputs display_items) (pairOf d) := by
    rw [pairInMap_build]
    exact List.mem_map_of_mem pairOf hd
  obtain ⟨s, hs0, _⟩ := hpair
  have hs : lookupPkg (buildPackageToInputs display_items) d.package = some s := hs0
  refine ⟨s, hs, (WFMap_build display_items).2 d.package s hs, fun i => ?_⟩
  constructor
  · intro hi
    have : pairInMap (buildPackageToInputs display_items) (d.package, i) := ⟨s, hs, hi⟩
    rw [pairInMap_build] at this
    exact this
  · intro hi
    have : pairInMap (buildPackageToInputs display_items) (d.package, i) := by
      rw [pairInMap_build]
      exact hi
    obtain ⟨s', hs0', hi'⟩ := this
    have hs' : lookupPkg (buildPackageToInputs display_items) d.package = some s' := hs0'
    rw [hs, Option.some.injEq] at hs'
    rw [hs']
    exact hi'

theorem one_lt_length_iff_exists_ne {s : List String} (hnd : s.Nodup) :
    1 < s.length ↔ ∃ a ∈ s, ∃ b ∈ s, a ≠ b := by
  constructor
  · intro hlen
    match s, hlen with
    | a :: b :: t, _ =>
      refine ⟨a, List.mem_cons_self a _, b, List.mem_cons_of_mem a (List.mem_cons_self b t), ?_⟩
      intro hc
      rw [List.nodup_cons] at hnd
      exact hnd.1 (hc ▸ List.mem_cons_self b t)
  · rintro ⟨a, ha, b, hb, hne⟩
    match s, ha, hb with
    | [x], ha, hb =>
      rw [List.mem_singleton] at ha hb
      exact absurd (ha.trans hb.symm) hne
    | x :: y :: t, _, _ => simp

theorem multiInput_iff_one_lt {display_items : List DisplayItem} {p : String}
    {s : List String} (hnd : s.Nodup)
    (hmem : ∀ i, i ∈ s ↔ (p, i) ∈ display_items.map pairOf) :
    1 < s.length ↔ multiInput display_items p := by
  rw [one_lt_length_iff_exists_ne hnd]
  unfold multiInput
  constructor
  · rintro ⟨a, ha, b, hb, hne⟩
    rw [hmem] at ha hb
    obtain ⟨d₁, hd₁, hpd₁⟩ := List.mem_map.mp ha
    obtain ⟨d₂, hd₂, hpd₂⟩ := List.mem_map.mp hb
    have e₁p : d₁.package = p := congrArg Prod.fst hpd₁
    have e₁i : d₁.input = a := congrArg Prod.snd hpd₁
    have e₂p : d₂.package = p := congrArg Prod.fst hpd₂
    have e₂i : d₂.input = b := congrArg Prod.snd hpd₂
    exact ⟨d₁, hd₁, d₂, hd₂, e₁p, e₂p, by rw [e₁i, e₂i]; exact hne⟩
  · rintro ⟨d₁, hd₁, d₂, hd₂, hp₁, hp₂, hne⟩
    refine ⟨d₁.input, ?_, d₂.input, ?_, hne⟩
    · rw [hmem]
      exact List.mem_map.mpr ⟨d₁, hd₁, by rw [pairOf, hp₁]⟩
    · rw [hmem]
      exact List.mem_map.mpr ⟨d₂, hd₂, by rw [pairOf, hp₂]⟩

/-! ## Claim C2, C3, C6 -/

/-- C2: for every input sequence of display items, the deduplicated output
contains exactly one item for each distinct `(package, input)` pair of the
input — namely the first-ranked occurrence of that pair — and preserves the
relative order of those first occurrences. -/
theorem dedup_first_occurrence_per_pair (display_items : List DisplayItem) :
    (dedup_and_disambiguate_display_items display_items).map pairOf =
      firstOccurrences [] (display_items.map pairOf)
    ∧ ∀ d ∈ dedup_and_disambiguate_display_items display_items,
        ∃ d₀, display_items.find? (fun e => pairOf e == pairOf d) = some d₀ ∧
          d.package = d₀.package ∧ d.input = d₀.input ∧
          d.description = d₀.description := by
  constructor
  · rw [dedup_eq_keepFirst, map_pairOf_keepFirst, map_pairOf_markItems]
  · intro d hd
    rw [dedup_eq_keepFirst] at hd
    have hfind := find?_of_mem_keepFirst _ [] d hd
    rw [find?_markItems] at hfind
    obtain ⟨d₀, hd₀, hmark⟩ := Option.map_eq_some'.mp hfind
    exact ⟨d₀, hd₀, by rw [← hmark, markItem_package],
      by rw [← hmark, markItem_input], by rw [← hmark, markItem_description]⟩

/-- Witness for C2 at the spec's consolidation example. -/
theorem dedup_first_occurrence_per_pair_witness :
    (dedup_and_disambiguate_display_items itemsExample).map pairOf =
      firstOccurrences [] (itemsExample.map pairOf)
    ∧ ∀ d ∈ dedup_and_disambiguate_display_items itemsExample,
        ∃ d₀, itemsExample.find? (fun e => pairOf e == pairOf d) = some d₀ ∧
          d.package = d₀.package ∧ d.input = d₀.input ∧
          d.description = d₀.description :=
  dedup_first_occurrence_per_pair itemsExample

/-- C3: an output item of the deduplication carries a true
`render_with_input` flag exactly when its package label occurs in the
original input sequence with more than one distinct input value. -/
theorem render_with_input_iff_multiple_inputs (display_items : List DisplayItem)
    (d : DisplayItem)
    (hd : d ∈ dedup_and_disambiguate_display_items display_items) :
    d.render_with_input = true ↔ multiInput display_items d.package := by
  rw [dedup_eq_keepFirst] at hd
  have hsub : d ∈ markItems (buildPackageToInputs display_items) display_items :=
    (keepFirst_sublist _ []).subset hd
  obtain ⟨d₀, hd₀, rfl⟩ := List.mem_map.mp hsub
  obtain ⟨s, hs, hnd, hmem⟩ := lookup_build_of_mem hd₀
  have hflag : (markItem (buildPackageToInputs display_items) d₀).render_with_input =
      decide (s.length > 1) := by
    unfold markItem
    rw [hs]
  rw [hflag, markItem_package, decide_eq_true_eq]
  exact multiInput_iff_one_lt hnd hmem

/-- Witness for C3: in the example, the surviving `flox` item is flagged. -/
theorem render_with_input_iff_multiple_inputs_witness :
    itemFloxMarked ∈ dedup_and_disambiguate_display_items itemsExample ∧
    (itemFloxMarked.render_with_input = true ↔
      multiInput itemsExample itemFloxMarked.package) :=
  ⟨by decide,
   render_with_input_iff_multiple_inputs itemsExample itemFloxMarked (by decide)⟩

/-- C6: deduplication of a non-empty item sequence is non-empty, so the
"deduplicating search results failed" branch of the user-facing renderer is
unreachable for non-empty result sequences. -/
theorem dedup_nonempty_of_nonempty :
    (∀ (d : DisplayItem) (rest : List DisplayItem),
        dedup_and_disambiguate_display_items (d :: rest) ≠ [])
    ∧ ∀ (search_term : String) (r : SearchResult) (rs : List SearchResult),
        render_search_results_user_facing search_term (r :: rs) ≠
          .error (.message "deduplicating search results failed") := by
  have h1 : ∀ (d : DisplayItem) (rest : List DisplayItem),
      dedup_and_disambiguate_display_items (d :: rest) ≠ [] := by
    intro d rest
    rw [dedup_eq_keepFirst]
    show keepFirstOccurrences []
      (markItem _ d :: markItems _ rest) ≠ []
    rw [keepFirstOccurrences]
    simp
  refine ⟨h1, ?_⟩
  intro search_term r rs
  have h2 : (dedup_and_disambiguate_display_items
      ((r :: rs).map projectItem)).isEmpty = false := by
    rw [List.map_cons]
    cases hc : (dedup_and_disambiguate_display_items
        (projectItem r :: rs.map projectItem)).isEmpty
    · rfl
    · exact absurd (List.isEmpty_iff.mp hc) (h1 _ _)
  unfold render_search_results_user_facing
  simp only [List.isEmpty_cons, Bool.false_eq_true, if_false, h2]
  intro hc
  cases hc

/-- Witness for C6: a singleton input sequence yields non-empty output. -/
theorem dedup_nonempty_of_nonempty_witness :
    dedup_and_disambiguate_display_items [itemFlox] ≠ [] :=
  dedup_nonempty_of_nonempty.1 itemFlox []

/-! ## Claims C1, C4, C5 -/

/-- C1 counterexample: with ranked labels `python, numpy, python`, the run
collected by `render_show` is not the contiguous prefix run the claim
describes — it includes the second `python` result even though the
non-matching `numpy` result stands between. -/
theorem collectRun_prefix_counterexample :
    collectRun runExample ≠ specPrefixRun runExample ∧
    srPython39 ∈ collectRun runExample ∧
    labelOf srNumpy ≠ labelOf srPython310 := by
  refine ⟨?_, ?_, ?_⟩ <;> decide

/-- C1 amended: the collected run consists of all results of the sequence
whose label equals the first result's label, in input order — a filter over
the whole sequence, not only its contiguous prefix. -/
theorem collectRun_filters_whole_sequence (r0 : SearchResult)
    (rest : List SearchResult) :
    collectRun (r0 :: rest) =
      r0 :: rest.filter (fun p => labelOf p == labelOf r0) :=
  collectRun_cons r0 rest

/-- C4 counterexample: in JSON mode an empty result sequence is not an
error; the serialized empty array is printed. -/
theorem json_empty_results_counterexample :
    render_search_results true "hello" ([] : List SearchResult) = .ok ["[]"] := rfl

/-- C4 amended: an empty result sequence yields the
"No packages matched this search term" error with no output lines in the
user-facing text mode only; JSON mode always prints the serialized raw
results as one line, empty or not, with no error. -/
theorem empty_results_rendering :
    (∀ search_term : String,
      render_search_results false search_term [] =
        .error (.message ("No packages matched this search term: " ++ search_term)))
    ∧ ∀ (search_term : String) (search_results : List SearchResult),
        render_search_results true search_term search_results =
          .ok [serializeResults search_results] := by
  constructor
  · intro search_term
    rfl
  · intro search_term search_results
    rfl

/-- C5: the exact token emission of `to_args` per flag kind: `Bool` emits
the flag exactly when the extracted boolean is true; `List` emits nothing
on an empty collection and otherwise the flag plus one space-joined token;
`Arg` always emits the flag and the stringified value; `Args` emits nothing
on an empty collection and otherwise the flag followed by one token per
element; `Custom` emits exactly the extracted tokens with no flag. -/
theorem to_args_emission (T : Type) (flag : String) (self : T) :
    (∀ f : T → Bool,
      to_args ⟨flag, .bool f⟩ self = if f self = true then [flag] else [])
    ∧ (∀ f : T → List String,
      to_args ⟨flag, .list f⟩ self =
        if f self = [] then [] else [flag, String.intercalate " " (f self)])
    ∧ (∀ f : T → String, to_args ⟨flag, .arg f⟩ self = [flag, f self])
    ∧ (∀ f : T → List String,
      to_args ⟨flag, .args f⟩ self =
        if f self = [] then [] else flag :: f self)
    ∧ (∀ f : T → List String, to_args ⟨flag, .custom f⟩ self = f self) := by
  refine ⟨?_, ?_, ?_, ?_, ?_⟩
  · intro f
    cases hf : f self <;> simp [to_args, hf]
  · intro f
    cases hf : f self with
    | nil => simp [to_args, hf]
    | cons a l => simp [to_args, hf]
  · intro f
    rfl
  · intro f
    cases hf : f self with
    | nil => simp [to_args, hf]
    | cons a l => simp [to_args, hf]
  · intro f
    rfl

/-! ## Claims C7 and C9 -/

theorem intercalate_pair (s a b : String) :
    String.intercalate s [a, b] = a ++ s ++ b := rfl

/-- The inline filter of `render_show` equals the spec-side elision rule:
an entry is dropped exactly when it is a catalog-subtree result whose
trailing absolute-path segment is `"latest"`, or carries no version. -/
theorem showEntry_eq_spec :
    (fun sr : SearchResult =>
      if (sr.subtree == Subtree.catalog)
          && ((sr.abs_path.getLast?.map (fun version => version == "latest")).getD false) then
        none
      else
        sr.version.map (fun version =>
          String.intercalate "@" [String.intercalate "." sr.rel_path, version])) =
    specAllVersionsEntry := by
  funext sr
  unfold specAllVersionsEntry
  by_cases hsub : sr.subtree = Subtree.catalog
  · by_cases hlast : sr.abs_path.getLast? = some "latest"
    · simp [hsub, hlast]
    · cases hl2 : sr.abs_path.getLast? with
      | none =>
        cases hv : sr.version with
        | none => simp [hsub, hl2, hv]
        | some v => simp [hsub, hl2, hv, intercalate_pair, labelOf]
      | some x =>
        have hx : ¬ x = "latest" := fun hc => hlast (by rw [hl2, hc])
        cases hv : sr.version with
        | none => simp [hsub, hl2, hv, hx]
        | some v => simp [hsub, hl2, hv, hx, intercalate_pair, labelOf]
  · cases hv : sr.version with
    | none => simp [hsub, hv]
    | some v => simp [hsub, hv, intercalate_pair, labelOf]

/-- C7: in the all-versions view, a collected-run entry is excluded from
the joined list exactly when it is a catalog-subtree entry with trailing
path segment `"latest"`, or carries no version; the remaining entries
contribute `label@version`, joined with `", "`, in run order. -/
theorem render_show_all_versions_elision (r0 : SearchResult)
    (rest : List SearchResult) :
    render_show (r0 :: rest) true =
      .ok [labelOf r0 ++ " - " ++
            ((r0.description.map (fun d => d.replace "\n" " ")).getD
              DEFAULT_DESCRIPTION),
          "    " ++ labelOf r0 ++ " - " ++
            String.intercalate ", "
              ((collectRun (r0 :: rest)).filterMap specAllVersionsEntry)] := by
  unfold render_show collectRun
  rw [foldl_collectStep_cons, ← showEntry_eq_spec]
  rfl

/-- C9: for every non-empty result sequence, the first printed line of
`render_show` is the top label, the separator `" - "`, and the first
collected result's newline-flattened description or the placeholder when
absent. -/
theorem render_show_first_line_description (r0 : SearchResult)
    (rest : List SearchResult) (all : Bool) :
    ∃ second_line, render_show (r0 :: rest) all =
      .ok [labelOf r0 ++ " - " ++
            ((r0.description.map (fun d => d.replace "\n" " ")).getD
              DEFAULT_DESCRIPTION),
          second_line] := by
  unfold render_show
  rw [foldl_collectStep_cons]
  exact ⟨_, rfl⟩

/-! ## Claims C8 and C10 -/

/-- C8: `construct_show_params` splits the raw term on `:`: one segment
yields the package name alone, two segments yield an input-name / package
pair whose package drives the query, and any other segment count fails with
`InvalidSearchTerm` carrying the original term — in which case the show
handler fails identically for every possible engine, so the engine is never
consulted. -/
theorem construct_show_params_split (search_term : String)
    (manifest global_manifest : PathOrJson) (lockfile : Option PathOrJson)
    (match_name : Bool) :
    (∀ package_name, rust_split ':' search_term = [package_name] →
      construct_show_params search_term manifest global_manifest lockfile match_name =
        show_params_query package_name manifest global_manifest lockfile match_name)
    ∧ (∀ input_name package_name,
        rust_split ':' search_term = [input_name, package_name] →
        construct_show_params search_term manifest global_manifest lockfile match_name =
          show_params_query package_name manifest global_manifest lockfile match_name)
    ∧ (∀ parts, rust_split ':' search_term = parts →
        parts.length ≠ 1 → parts.length ≠ 2 →
        construct_show_params search_term manifest global_manifest lockfile match_name =
          .error (.invalidSearchTerm search_term)
        ∧ ∀ (engine : SearchParams → List SearchResult × Int) (all : Bool),
            show_handle engine search_term all manifest global_manifest lockfile
              match_name = .error (.invalidSearchTerm search_term)) := by
  refine ⟨?_, ?_, ?_⟩
  · intro package_name h
    simp only [construct_show_params, h]
  · intro input_name package_name h
    simp only [construct_show_params, h]
  · intro parts h h1 h2
    have herr : construct_show_params search_term manifest global_manifest lockfile
        match_name = .error (.invalidSearchTerm search_term) := by
      simp only [construct_show_params, h]
      match parts, h1, h2 with
      | [], _, _ => rfl
      | [x], h1, _ => exact absurd rfl h1
      | [x, y], _, h2 => exact absurd rfl h2
      | x :: y :: z :: t, _, _ => rfl
    refine ⟨herr, ?_⟩
    intro engine all
    simp only [show_handle, herr]
    rfl

/-- Witness for C8 at the three segment counts. -/
theorem construct_show_params_split_witness :
    (construct_show_params "hello" (.path "m") (.path "g") none true =
      show_params_query "hello" (.path "m") (.path "g") none true)
    ∧ (construct_show_params "nixpkgs:hello" (.path "m") (.path "g") none true =
      show_params_query "hello" (.path "m") (.path "g") none true)
    ∧ construct_show_params "a:b:c" (.path "m") (.path "g") none true =
      .error (.invalidSearchTerm "a:b:c") :=
  ⟨(construct_show_params_split "hello" (.path "m") (.path "g") none true).1
      "hello" (by decide),
   (construct_show_params_split "nixpkgs:hello" (.path "m") (.path "g") none true).2.1
      "nixpkgs" "hello" (by decide),
   ((construct_show_params_split "a:b:c" (.path "m") (.path "g") none true).2.2
      ["a", "b", "c"] (by decide) (by decide) (by decide)).1⟩

/-- C10: for a two-segment show term, the constructed params equal those of
the bare package segment: the input segment has no effect. -/
theorem construct_show_params_ignores_input_segment
    (search_term input_name package_name : String)
    (manifest global_manifest : PathOrJson) (lockfile : Option PathOrJson)
    (match_name : Bool)
    (h : rust_split ':' search_term = [input_name, package_name]) :
    construct_show_params search_term manifest global_manifest lockfile match_name =
      construct_show_params package_name manifest global_manifest lockfile
        match_name := by
  have hy : ':' ∉ package_name.data := rust_split_pair_no_sep h
  have hp : rust_split ':' package_name = [package_name] :=
    rust_split_eq_singleton _ _ hy
  simp only [construct_show_params, h, hp]

/-- Witness for C10 at the term `nixpkgs:hello`. -/
theorem construct_show_params_ignores_input_segment_witness :
    construct_show_params "nixpkgs:hello" (.path "m") (.path "g") none true =
      construct_show_params "hello" (.path "m") (.path "g") none true :=
  construct_show_params_ignores_input_segment "nixpkgs:hello" "nixpkgs" "hello"
    (.path "m") (.path "g") none true (by decide)

end Flox
